import Mathlib

/-!
Verification of the ECG denoising / classification pipeline of the Doctorino
repository (app/backend/ecg/ecg_classification_api.py and the segmentation
loop of app/backend/routers/files.py), as a shallow embedding in Lean 4.

Real samples and probabilities are embedded as rationals; the Python
exceptions raised by the pipeline are embedded as an explicit error type,
following the error taxonomy of the specification (the IndexError raised by
an empty-signal access corresponds to InvalidSignalError, the ValueError
raised by max() over an empty Counter to EmptyAggregationError, and the
HTTPException(500) responses of the router to the fatal
SignalProcessingError / InsufficientDataError).
-/

set_option autoImplicit false
set_option maxRecDepth 10000

namespace Doctorino

/-- The five ECG class labels, the values of CLASS_MAPPING in
ecg_classification_api.py (indices 0..4 in this order). -/
inductive Label where
  | normal
  | atrial
  | ventricular
  | lbbb
  | rbbb
deriving DecidableEq, Repr, Fintype

/-- The values of CLASS_MAPPING in its key order 0,1,2,3,4 (also the dict
iteration order of the source map). -/
def allLabels : List Label :=
  [Label.normal, Label.atrial, Label.ventricular, Label.lbbb, Label.rbbb]

/-- CLASS_MAPPING as a function from a class index to its label. -/
def labelOf (i : Fin 5) : Label :=
  allLabels.get (Fin.cast (by rfl) i)

/-- The error taxonomy of the specification, naming the exceptions the
source raises at the corresponding program points. -/
inductive EcgError where
  | invalidSignal
  | emptyAggregation
  | signalProcessing
  | insufficientData
deriving DecidableEq, Repr

/-- One element of the results list built by the segmentation loop of
upload_ecg_files: a dict with keys segment (1-based index), prediction
(a label) and probabilities (a label-to-probability dict, embedded as an
association list in dict iteration order). -/
structure SegmentResult where
  segment : Nat
  prediction : Label
  probabilities : List (Label × ℚ)
deriving DecidableEq, Repr

/-- The dict returned by calculate_final_prediction. The distribution
dict is embedded as an association list in its (insertion-order) iteration
order; average_probabilities always holds all five labels in CLASS_MAPPING
order, so it is embedded the same way. -/
structure AggregateResult where
  final_class : Label
  confidence : ℚ
  distribution : List (Label × Nat)
  average_probabilities : List (Label × ℚ)
deriving DecidableEq, Repr

/-- The distinct elements of a list in order of first occurrence: the key
iteration order of a Python dict or Counter built by inserting the elements
left to right. -/
def firstKeys : List Label → List Label
  | [] => []
  | l :: ls => l :: (firstKeys ls).filter (fun k => k ≠ l)

/-- Embedding of collections.Counter(iterable): each distinct element is
mapped to its multiplicity, and iteration enumerates the keys in first
insertion order. -/
def counter (ls : List Label) : List (Label × Nat) :=
  (firstKeys ls).map (fun l => (l, ls.count l))

/-- Embedding of Python's max(iterable, key=f) specialised to counter
entries with f the stored count: fold over the remaining entries keeping
the current best, replacing it only on a strictly greater count (max keeps
the earliest of equal elements). -/
def maxByCount (best : Label × Nat) : List (Label × Nat) → Label × Nat
  | [] => best
  | p :: rest => if best.2 < p.2 then maxByCount p rest else maxByCount best rest

/-- Round half to even at integer precision, the rounding mode of Python's
built-in round. -/
def roundHalfEven (x : ℚ) : ℤ :=
  let f := Int.floor x
  let r := x - f
  if r < 1/2 then f else if 1/2 < r then f + 1 else if f % 2 = 0 then f else f + 1

/-- Embedding of round(x, 2). -/
def round2 (x : ℚ) : ℚ :=
  (roundHalfEven (100 * x) : ℚ) / 100

/-- Folding one probabilities dict into the running totals dict, the inner
loop of calculate_final_prediction (total_probabilities[cls] += prob). The
totals dict is zero-initialised over exactly the five labels, so it is
embedded as a total function on Label. -/
def addPairs (t : Label → ℚ) : List (Label × ℚ) → Label → ℚ
  | [] => t
  | q :: ps => addPairs (fun l => if l = q.1 then t l + q.2 else t l) ps

/-- The outer loop of the probability aggregation: fold every
prediction's probabilities dict into the running totals dict. -/
def totalsLoop (t : Label → ℚ) : List SegmentResult → Label → ℚ
  | [] => t
  | p :: ps => totalsLoop (addPairs t p.probabilities) ps

/-- The totals dict of calculate_final_prediction after folding every
prediction's probabilities over the zero-initialised dict. -/
def total_probabilities (preds : List SegmentResult) : Label → ℚ :=
  totalsLoop (fun _ => 0) preds

/-- The aggregate built by calculate_final_prediction once the Counter is
known to be non-empty (head c, tail cs): max by count for the final class,
confidence as a rounded percentage of segments agreeing with it, the
Counter itself as the distribution, and the per-label mean probabilities
over all five labels in CLASS_MAPPING order. -/
def mkAggregate (predictions : List SegmentResult) (c : Label × Nat)
    (cs : List (Label × Nat)) : AggregateResult :=
  let final := maxByCount c cs
  { final_class := final.1
    confidence := round2 (((final.2 : ℚ) / (predictions.length : ℚ)) * 100)
    distribution := c :: cs
    average_probabilities :=
      allLabels.map
        (fun l => (l, total_probabilities predictions l / (predictions.length : ℚ))) }

/-- Embedding of calculate_final_prediction: Counter over the predicted
labels, then the aggregate of mkAggregate. On an empty input Python's max
raises ValueError (the specification's EmptyAggregationError); every other
path returns a result. -/
def calculate_final_prediction (predictions : List SegmentResult) :
    Except EcgError AggregateResult :=
  match counter (predictions.map (fun p => p.prediction)) with
  | [] => .error .emptyAggregation
  | c :: cs => .ok (mkAggregate predictions c cs)

/-- The sum of the values stored under label l in an association list: the
per-label reading of the accumulation loop of calculate_final_prediction
(in a dict the key occurs at most once, so this is that entry's value, and
0 when the label is absent). -/
def probAt (l : Label) : List (Label × ℚ) → ℚ
  | [] => 0
  | q :: ps => (if q.1 = l then q.2 else 0) + probAt l ps

/-- One iteration of the Kalman loop of hierarchical_kalman_filter: from
the state (x_hat, p) and the measurement z, compute p_minus = p + Q, the
gain K = p_minus / (p_minus + R), the new estimate and the new covariance.
Returns (new estimate, gain, new covariance); the estimate is the output
sample written for this iteration. -/
def kalmanStep (Q R : ℚ) (st : ℚ × ℚ) (z : ℚ) : ℚ × ℚ × ℚ :=
  let p_minus := st.2 + Q
  let K := p_minus / (p_minus + R)
  (st.1 + K * (z - st.1), K, (1 - K) * p_minus)

/-- The Kalman loop over a list of measurements from a given initial
state, recording for every iteration the output sample and the gain. -/
def stageRun (Q R : ℚ) : ℚ × ℚ → List ℚ → List (ℚ × ℚ)
  | _, [] => []
  | st, z :: zs =>
    let s := kalmanStep Q R st z
    (s.1, s.2.1) :: stageRun Q R (s.1, s.2.2) zs

/-- One filter stage of hierarchical_kalman_filter: initial state
(signal[0], 1.0), loop over all samples, output samples collected. -/
def kalman_stage (sig : List ℚ) (Q R : ℚ) : List ℚ :=
  (stageRun Q R (sig.headD 0, 1) sig).map (fun s => s.1)

/-- Embedding of hierarchical_kalman_filter: two cascaded stages, the
second consuming the first stage's output with its own parameters. On an
empty signal the access signal[0] raises IndexError, the specification's
InvalidSignalError. -/
def hierarchical_kalman_filter (signal : List ℚ) (Q1 R1 Q2 R2 : ℚ) :
    Except EcgError (List ℚ) :=
  match signal with
  | [] => .error .invalidSignal
  | _ :: _ =>
    let f1 := kalman_stage signal Q1 R1
    .ok (kalman_stage f1 Q2 R2)

/-- Every Kalman gain computed while running hierarchical_kalman_filter:
the gains of stage one over the signal followed by the gains of stage two
over stage one's output. -/
def hkfGains (signal : List ℚ) (Q1 R1 Q2 R2 : ℚ) : List ℚ :=
  let g1 := stageRun Q1 R1 (signal.headD 0, 1) signal
  let f1 := g1.map (fun s => s.1)
  g1.map (fun s => s.2) ++ (stageRun Q2 R2 (f1.headD 0, 1) f1).map (fun s => s.2)

/-- The Kalman filter defaults of the config (KalmanFilterSettings):
Q1 = 0.001, R1 = 10.0, Q2 = 0.001, R2 = 1.0, matching the defaults of
hierarchical_kalman_filter itself. -/
def defaultQ1 : ℚ := 1/1000

/-- Default measurement noise covariance of the first stage. -/
def defaultR1 : ℚ := 10

/-- Default process noise covariance of the second stage. -/
def defaultQ2 : ℚ := 1/1000

/-- Default measurement noise covariance of the second stage. -/
def defaultR2 : ℚ := 1

/-- Embedding of process_ecg_data: run the cascaded Kalman filter with the
config settings; any exception (the empty-signal IndexError included) is
caught and (None, None) returned, embedded as none. The plot drawing and
base64 graph are presentation output, external to the claims. -/
def process_ecg_data (data : List ℚ) : Option (List ℚ) :=
  match hierarchical_kalman_filter data defaultQ1 defaultR1 defaultQ2 defaultR2 with
  | .error _ => none
  | .ok d => some d

/-- The external classifier capability as seen by predict_segment: for a
segment, either some (argmax class index, softmax probability vector) when
the model call succeeds, or none when the model is unavailable or raises. -/
def ClassifierOracle : Type :=
  List ℚ → Option (Fin 5 × (Fin 5 → ℚ))

/-- The fallback probability vector of predict_segment:
np.zeros(5) with entry 0 set to 1.0. -/
def fallbackProbs : Fin 5 → ℚ :=
  fun j => if j = 0 then 1 else 0

/-- Embedding of predict_segment: the oracle's answer when the model call
succeeds; on any failure the fixed fallback (class 0 = Normal Beat,
probabilities [1,0,0,0,0]). -/
def predict_segment (oracle : ClassifierOracle) (segment : List ℚ) :
    Fin 5 × (Fin 5 → ℚ) :=
  match oracle segment with
  | some r => r
  | none => (0, fallbackProbs)

/-- Embedding of Python's range(0, stop, step) over naturals: the start
indices 0, step, 2·step, ... strictly below stop ((stop + step - 1) / step
of them; a non-positive Python stop becomes 0 by truncated subtraction and
the range is empty, as in Python). -/
def pyRange (stop step : Nat) : List Nat :=
  List.range' 0 ((stop + step - 1) / step) step

/-- The probabilities dict built for one segment's result:
key CLASS_MAPPING[j], value probs[j], for j = 0..4 in order. -/
def probDict (probs : Fin 5 → ℚ) : List (Label × ℚ) :=
  (List.finRange 5).map (fun j => (labelOf j, probs j))

/-- The body of the segmentation loop of upload_ecg_files at start index
i: classify denoised[i : i+300] and build the result dict with the 1-based
segment index i // 300 + 1. -/
def mkEntry (oracle : ClassifierOracle) (denoised : List ℚ) (i : Nat) :
    SegmentResult :=
  let r := predict_segment oracle ((denoised.drop i).take 300)
  { segment := i / 300 + 1
    prediction := labelOf r.1
    probabilities := probDict r.2 }

/-- The segmentation loop of upload_ecg_files: for i in
range(0, len(denoised) - 300, 300), take denoised[i : i+300], and append a
result only if the slice has the full 300 samples (the predicted class is
never None, so that inner guard always passes). -/
def segmentPredictions (oracle : ClassifierOracle) (denoised : List ℚ) :
    List SegmentResult :=
  (pyRange (denoised.length - 300) 300).filterMap (fun i =>
    if ((denoised.drop i).take 300).length = 300 then
      some (mkEntry oracle denoised i)
    else none)

/-- The response assembled by upload_ecg_files: the per-segment results
and the final aggregate (the signal plot is presentation output, omitted). -/
structure AnalysisResponse where
  predictions : List SegmentResult
  final_prediction : AggregateResult
deriving DecidableEq, Repr

/-- The analysis block of upload_ecg_files once the record's first channel
has been read: denoise via process_ecg_data — a None result raises
HTTPException(500) (the fatal SignalProcessingError) — then classify every
window; an empty results list raises HTTPException(500) (the fatal
InsufficientDataError); finally aggregate. This block sits inside the
handler's inner try: its exceptions are caught by the blanket except of
the route, modelled by upload_ecg_route. -/
def upload_ecg_analyze (oracle : ClassifierOracle) (signal : List ℚ) :
    Except EcgError AnalysisResponse :=
  match process_ecg_data signal with
  | none => .error .signalProcessing
  | some denoised =>
    let results := segmentPredictions oracle denoised
    if results.isEmpty then .error .insufficientData
    else
      match calculate_final_prediction results with
      | .error e => .error e
      | .ok fp => .ok { predictions := results, final_prediction := fp }

/-- The upload_ecg_files handler around the analysis block: any exception
raised inside the inner try — the HTTPException(500) responses of the
analysis block included, since HTTPException subclasses Exception — is
caught by the blanket except, which builds a simulated 2000-sample noisy
sine signal (np.sin over np.linspace plus random noise; modelled as the
parameter simulated, since it involves floating sine and randomness) and
returns the analysis of that simulated signal as a success (with a note
string, not modelled). Only a failure of the fallback analysis itself
reaches the outermost except and becomes a fatal HTTPException(500). -/
def upload_ecg_route (oracle : ClassifierOracle) (simulated : List ℚ)
    (signal : List ℚ) : Except EcgError AnalysisResponse :=
  match upload_ecg_analyze oracle signal with
  | .ok resp => .ok resp
  | .error _ => upload_ecg_analyze oracle simulated

/-- A concrete one-element list of segment results, used to instantiate
the aggregation theorems: a single segment predicted Normal with the
one-hot probability vector. -/
def samplePreds : List SegmentResult :=
  [{ segment := 1, prediction := Label.normal, probabilities := probDict fallbackProbs }]

/-- The aggregate computed by calculate_final_prediction on samplePreds. -/
def sampleAgg : AggregateResult :=
  { final_class := Label.normal
    confidence := 100
    distribution := [(Label.normal, 1)]
    average_probabilities :=
      [(Label.normal, 1), (Label.atrial, 0), (Label.ventricular, 0),
       (Label.lbbb, 0), (Label.rbbb, 0)] }

section KalmanLemmas

/-- Updating the estimate with a measurement equal to the estimate leaves
the estimate unchanged, whatever the gain. -/
theorem kalmanStep_fst_self (Q R x p : ℚ) : (kalmanStep Q R (x, p) x).1 = x := by
  simp [kalmanStep]

/-- A stage run over a constant measurement list starting from that
constant estimate outputs the constant at every iteration. -/
theorem stageRun_const_fst (Q R c : ℚ) :
    ∀ (k : Nat) (p : ℚ),
      (stageRun Q R (c, p) (List.replicate k c)).map (fun s => s.1) =
        List.replicate k c := by
  intro k
  induction k with
  | zero => intro p; rfl
  | succ m ih =>
    intro p
    rw [List.replicate_succ]
    simp only [stageRun, List.map_cons, kalmanStep_fst_self]
    rw [ih]

/-- One filter stage maps a constant signal to itself. -/
theorem kalman_stage_const (m : Nat) (c Q R : ℚ) :
    kalman_stage (List.replicate (m + 1) c) Q R = List.replicate (m + 1) c := by
  rw [kalman_stage, List.replicate_succ, List.headD_cons, ← List.replicate_succ]
  exact stageRun_const_fst Q R c (m + 1) 1

/-- The first output sample of a stage equals the first input sample. -/
theorem kalman_stage_head (x : ℚ) (xs : List ℚ) (Q R : ℚ) :
    ∃ t, kalman_stage (x :: xs) Q R = x :: t := by
  refine ⟨(stageRun Q R ((kalmanStep Q R (x, 1) x).1, (kalmanStep Q R (x, 1) x).2.2) xs).map
    (fun s => s.1), ?_⟩
  simp only [kalman_stage, List.headD_cons, stageRun, List.map_cons, kalmanStep_fst_self]

/-- Every gain recorded by a stage run lies strictly between 0 and 1 when
the noise parameters and the entering covariance are strictly positive:
the covariance stays strictly positive through every iteration. -/
theorem stageRun_gains (Q R : ℚ) (hQ : 0 < Q) (hR : 0 < R) :
    ∀ (zs : List ℚ) (x p : ℚ), 0 < p →
      ∀ g ∈ (stageRun Q R (x, p) zs).map (fun s => s.2), 0 < g ∧ g < 1 := by
  intro zs
  induction zs with
  | nil => intro x p _ g hg; simp [stageRun] at hg
  | cons z zs ih =>
    intro x p hp g hg
    have hpm : 0 < p + Q := by linarith
    have hden : 0 < p + Q + R := by linarith
    have hK0 : 0 < (p + Q) / (p + Q + R) := div_pos hpm hden
    have hK1 : (p + Q) / (p + Q + R) < 1 := (div_lt_one hden).2 (by linarith)
    have hp' : 0 < (1 - (p + Q) / (p + Q + R)) * (p + Q) :=
      mul_pos (by linarith) hpm
    simp only [stageRun, kalmanStep, List.map_cons, List.mem_cons] at hg
    rcases hg with rfl | hg
    · exact ⟨hK0, hK1⟩
    · exact ih _ _ hp' g hg

end KalmanLemmas

/-- Claim C7: for a non-empty signal and strictly positive noise
parameters, every Kalman gain computed in either stage of
hierarchical_kalman_filter lies strictly between 0 and 1 (the covariance
staying strictly positive is the invariant carried by stageRun_gains). -/
theorem kalman_gain_unit_interval (signal : List ℚ) (Q1 R1 Q2 R2 : ℚ)
    (_hs : signal ≠ []) (hQ1 : 0 < Q1) (hR1 : 0 < R1) (hQ2 : 0 < Q2) (hR2 : 0 < R2) :
    ∀ g ∈ hkfGains signal Q1 R1 Q2 R2, 0 < g ∧ g < 1 := by
  intro g hg
  rw [hkfGains, List.mem_append] at hg
  rcases hg with hg | hg
  · exact stageRun_gains Q1 R1 hQ1 hR1 signal _ 1 one_pos g hg
  · exact stageRun_gains Q2 R2 hQ2 hR2 _ _ 1 one_pos g hg

/-- The gains of a run on the one-sample signal with all four noise
parameters set to 1: one gain of 2/3 per stage. -/
theorem hkfGains_one_sample :
    hkfGains [1] 1 1 1 1 = [2/3, 2/3] := by
  norm_num [hkfGains, kalman_stage, stageRun, kalmanStep]

/-- Membership of the concrete gain 2/3 in the gains of that run. -/
theorem gain_two_thirds_mem :
    (2/3 : ℚ) ∈ hkfGains [1] 1 1 1 1 := by
  rw [hkfGains_one_sample]
  exact List.mem_cons_self _ _

/-- Claim C7 witness: the stage-one gain of a run on the one-sample
signal with unit noise parameters is strictly between 0 and 1. -/
theorem kalman_gain_unit_interval_witness :
    0 < (2/3 : ℚ) ∧ (2/3 : ℚ) < 1 :=
  kalman_gain_unit_interval [1] 1 1 1 1
    (by simp) one_pos one_pos one_pos one_pos
    (2/3) gain_two_thirds_mem

/-- The cascaded filter is the identity on a non-empty constant signal,
for any noise parameters. -/
theorem hkf_const (m : Nat) (c Q1 R1 Q2 R2 : ℚ) :
    hierarchical_kalman_filter (List.replicate (m + 1) c) Q1 R1 Q2 R2 =
      .ok (List.replicate (m + 1) c) := by
  have h1 := kalman_stage_const m c Q1 R1
  have h2 := kalman_stage_const m c Q2 R2
  rw [List.replicate_succ] at h1 h2 ⊢
  simp only [hierarchical_kalman_filter, h1, h2]

/-- The filter pipeline entry point returns a non-empty constant signal
unchanged. -/
theorem process_ecg_data_const (m : Nat) (c : ℚ) :
    process_ecg_data (List.replicate (m + 1) c) = some (List.replicate (m + 1) c) := by
  rw [process_ecg_data, hkf_const]

/-- Claim C8: a constant signal of any positive length is a fixed point of
the cascaded filter; in particular a one-sample signal is returned
unchanged, its single output sample being input[0]. -/
theorem constant_signal_invariant (n : Nat) (c Q1 R1 Q2 R2 : ℚ) (hn : 1 ≤ n) :
    hierarchical_kalman_filter (List.replicate n c) Q1 R1 Q2 R2 =
      .ok (List.replicate n c) := by
  obtain ⟨m, rfl⟩ : ∃ m, n = m + 1 := ⟨n - 1, by omega⟩
  exact hkf_const m c Q1 R1 Q2 R2

/-- Claim C8 witness: the cascaded filter at the default parameters maps
the constant signal of three fives to itself. -/
theorem constant_signal_invariant_witness :
    hierarchical_kalman_filter (List.replicate 3 5) defaultQ1 defaultR1 defaultQ2 defaultR2 =
      .ok (List.replicate 3 5) :=
  constant_signal_invariant 3 5 defaultQ1 defaultR1 defaultQ2 defaultR2 (by decide)

/-- Claim C10: for every non-empty signal and any noise parameters the
first output sample of hierarchical_kalman_filter equals the first input
sample, since each stage initializes its estimate to its input's first
sample. -/
theorem first_sample_preserved (x : ℚ) (xs : List ℚ) (Q1 R1 Q2 R2 : ℚ) :
    ∃ ys, hierarchical_kalman_filter (x :: xs) Q1 R1 Q2 R2 = .ok (x :: ys) := by
  obtain ⟨t1, h1⟩ := kalman_stage_head x xs Q1 R1
  obtain ⟨t2, h2⟩ := kalman_stage_head x t1 Q2 R2
  refine ⟨t2, ?_⟩
  simp only [hierarchical_kalman_filter]
  rw [h1, h2]

/-- Claim C3: aggregating an empty list of segment results fails with the
empty-aggregation error (the max over the empty Counter) and never
returns a fabricated aggregate. -/
theorem empty_aggregation_fails :
    calculate_final_prediction [] = .error .emptyAggregation := rfl

/-- Claim C1 (code behaviour at the failing input): the segmentation loop
over a 900-sample denoised signal produces 2 segment results, not
900 / 300 = 3 as the claim demands, because range(0, 900 - 300, 300)
stops before the start index 600 of the last full window. -/
theorem segmentation_loop_drops_final_window :
    (segmentPredictions (fun _ => none) (List.replicate 900 (0:ℚ))).length = 2 ∧
      (segmentPredictions (fun _ => none) (List.replicate 900 (0:ℚ))).length ≠ 900 / 300 := by
  constructor
  · rfl
  · decide

section CounterLemmas

/-- The running maximum always returns one of the candidates. -/
theorem maxByCount_mem (best : Label × Nat) (items : List (Label × Nat)) :
    maxByCount best items ∈ best :: items := by
  induction items generalizing best with
  | nil => simp [maxByCount]
  | cons p rest ih =>
    rw [maxByCount]
    by_cases h : best.2 < p.2
    · rw [if_pos h]
      exact List.mem_cons_of_mem best (ih p)
    · rw [if_neg h]
      rcases List.mem_cons.1 (ih best) with h1 | h1
      · rw [h1]; exact List.mem_cons_self _ _
      · exact List.mem_cons_of_mem _ (List.mem_cons_of_mem _ h1)

/-- The running maximum dominates the starting candidate and every item. -/
theorem maxByCount_le (best : Label × Nat) (items : List (Label × Nat)) :
    best.2 ≤ (maxByCount best items).2 ∧
      ∀ q ∈ items, q.2 ≤ (maxByCount best items).2 := by
  induction items generalizing best with
  | nil => exact ⟨le_refl _, by simp⟩
  | cons p rest ih =>
    rw [maxByCount]
    by_cases h : best.2 < p.2
    · rw [if_pos h]
      obtain ⟨h1, h2⟩ := ih p
      refine ⟨le_of_lt (lt_of_lt_of_le h h1), ?_⟩
      intro q hq
      rcases List.mem_cons.1 hq with rfl | hq'
      · exact h1
      · exact h2 q hq'
    · rw [if_neg h]
      obtain ⟨h1, h2⟩ := ih best
      refine ⟨h1, ?_⟩
      intro q hq
      rcases List.mem_cons.1 hq with rfl | hq'
      · exact le_trans (Nat.le_of_not_lt h) h1
      · exact h2 q hq'

/-- If no item strictly beats the starting candidate's count, the running
maximum is the starting candidate itself. -/
theorem maxByCount_eq_best (best : Label × Nat) (items : List (Label × Nat))
    (h : (maxByCount best items).2 ≤ best.2) : maxByCount best items = best := by
  induction items generalizing best with
  | nil => rfl
  | cons p rest ih =>
    rw [maxByCount] at h ⊢
    by_cases hc : best.2 < p.2
    · rw [if_pos hc] at h ⊢
      exfalso
      have := (maxByCount_le p rest).1
      omega
    · rw [if_neg hc] at h ⊢
      exact ih best h

/-- Among the candidates whose count equals the maximum, the running
maximum is the one appearing first, for any strictly increasing position
assignment along the candidate list: Python's max keeps the earliest of
equals. -/
theorem maxByCount_earliest (idx : Label → Nat) (items : List (Label × Nat)) :
    ∀ best : Label × Nat,
      (best :: items).Pairwise (fun a b => idx a.1 < idx b.1) →
      ∀ q ∈ best :: items, q.2 = (maxByCount best items).2 →
        idx (maxByCount best items).1 ≤ idx q.1 := by
  induction items with
  | nil =>
    intro best _ q hq _
    rw [maxByCount]
    rcases List.mem_cons.1 hq with rfl | hq'
    · exact le_refl _
    · exact absurd hq' (List.not_mem_nil q)
  | cons p rest ih =>
    intro best hpw q hq hv
    rw [maxByCount] at hv ⊢
    by_cases hc : best.2 < p.2
    · rw [if_pos hc] at hv ⊢
      have hpw' : (p :: rest).Pairwise (fun a b => idx a.1 < idx b.1) :=
        (List.pairwise_cons.1 hpw).2
      rcases List.mem_cons.1 hq with rfl | hq'
      · exfalso
        have := (maxByCount_le p rest).1
        omega
      · exact ih p hpw' q hq' hv
    · rw [if_neg hc] at hv ⊢
      have hsub : (best :: rest).Sublist (best :: p :: rest) :=
        List.Sublist.cons₂ best (List.sublist_cons_self p rest)
      have hpw' := List.Pairwise.sublist hsub hpw
      rcases List.mem_cons.1 hq with rfl | hq'
      · exact ih q hpw' q (List.mem_cons_self _ _) hv
      · rcases List.mem_cons.1 hq' with rfl | hq''
        · have h1 := (maxByCount_le best rest).1
          have heq : maxByCount best rest = best :=
            maxByCount_eq_best best rest (by omega)
          rw [heq]
          exact le_of_lt ((List.pairwise_cons.1 hpw).1 q (List.mem_cons_self _ _))
        · exact ih best hpw' q (List.mem_cons_of_mem _ hq'') hv

/-- Membership in the first-occurrence key list is membership in the list. -/
theorem mem_firstKeys (l : Label) (ls : List Label) :
    l ∈ firstKeys ls ↔ l ∈ ls := by
  induction ls with
  | nil => simp [firstKeys]
  | cons a t ih =>
    rw [firstKeys]
    constructor
    · intro h
      rcases List.mem_cons.1 h with rfl | h'
      · exact List.mem_cons_self _ _
      · exact List.mem_cons_of_mem _ (ih.1 (List.mem_filter.1 h').1)
    · intro h
      rcases List.mem_cons.1 h with rfl | h'
      · exact List.mem_cons_self _ _
      · by_cases hla : l = a
        · rw [hla]; exact List.mem_cons_self _ _
        · refine List.mem_cons_of_mem _ (List.mem_filter.2 ⟨ih.2 h', ?_⟩)
          simpa using hla

/-- The first-occurrence key list is strictly increasing in position of
first occurrence. -/
theorem firstKeys_pairwise (ls : List Label) :
    (firstKeys ls).Pairwise (fun a b => ls.indexOf a < ls.indexOf b) := by
  induction ls with
  | nil => simp [firstKeys]
  | cons a t ih =>
    rw [firstKeys, List.pairwise_cons]
    constructor
    · intro b hb
      have hba : b ≠ a := by simpa using (List.mem_filter.1 hb).2
      rw [List.indexOf_cons_self, List.indexOf_cons_ne t hba.symm]
      exact Nat.succ_pos _
    · have hsub : ((firstKeys t).filter (fun k => k ≠ a)).Sublist (firstKeys t) :=
        List.filter_sublist (firstKeys t)
      have hpw := List.Pairwise.sublist hsub ih
      refine List.Pairwise.imp_of_mem ?_ hpw
      intro x y hx hy hxy
      have hxa : x ≠ a := by simpa using (List.mem_filter.1 hx).2
      have hya : y ≠ a := by simpa using (List.mem_filter.1 hy).2
      rw [List.indexOf_cons_ne t hxa.symm, List.indexOf_cons_ne t hya.symm]
      exact Nat.succ_lt_succ hxy

/-- Every counter entry pairs a member of the list with its count. -/
theorem counter_mem {ls : List Label} {q : Label × Nat} (h : q ∈ counter ls) :
    q.1 ∈ ls ∧ q.2 = ls.count q.1 := by
  rw [counter] at h
  obtain ⟨k, hk, rfl⟩ := List.mem_map.1 h
  exact ⟨(mem_firstKeys k ls).1 hk, rfl⟩

/-- Every member of the list contributes its counter entry. -/
theorem counter_mem_of {ls : List Label} {l : Label} (h : l ∈ ls) :
    (l, ls.count l) ∈ counter ls := by
  rw [counter]
  exact List.mem_map.2 ⟨l, (mem_firstKeys l ls).2 h, rfl⟩

/-- Counter entries are ordered by position of first occurrence. -/
theorem counter_pairwise (ls : List Label) :
    (counter ls).Pairwise (fun a b => ls.indexOf a.1 < ls.indexOf b.1) := by
  rw [counter, List.pairwise_map]
  exact firstKeys_pairwise ls

/-- A member occurs a positive number of times. -/
theorem count_pos_of_mem {ls : List Label} {l : Label} (h : l ∈ ls) :
    0 < ls.count l := by
  rcases Nat.eq_zero_or_pos (ls.count l) with h0 | h1
  · exact absurd h (List.count_eq_zero.1 h0)
  · exact h1

/-- The counter of a non-empty list is non-empty. -/
theorem counter_ne_nil {ls : List Label} (h : ls ≠ []) : counter ls ≠ [] := by
  obtain ⟨a, t, rfl⟩ := List.exists_cons_of_ne_nil h
  simp [counter, firstKeys]

/-- Inversion of a successful aggregation: the counter was non-empty and
the result is the aggregate built from it. -/
theorem calc_ok_elim {preds : List SegmentResult} {r : AggregateResult}
    (h : calculate_final_prediction preds = .ok r) :
    ∃ c cs, counter (preds.map (fun p => p.prediction)) = c :: cs ∧
      r = mkAggregate preds c cs := by
  rcases hcc : counter (preds.map (fun p => p.prediction)) with _ | ⟨c, cs⟩
  · unfold calculate_final_prediction at h
    rw [hcc] at h
    exact Except.noConfusion h
  · unfold calculate_final_prediction at h
    rw [hcc] at h
    exact ⟨c, cs, hcc, (Except.ok.inj h).symm⟩

/-- Aggregation of a non-empty result list always succeeds. -/
theorem calc_ok_of_ne_nil {preds : List SegmentResult} (h : preds ≠ []) :
    ∃ r, calculate_final_prediction preds = .ok r := by
  rcases hcc : counter (preds.map (fun p => p.prediction)) with _ | ⟨c, cs⟩
  · exact absurd hcc (counter_ne_nil (fun hnil => h (List.map_eq_nil_iff.1 hnil)))
  · refine ⟨mkAggregate preds c cs, ?_⟩
    unfold calculate_final_prediction
    rw [hcc]

end CounterLemmas

section SampleEvaluation

/-- The one-hot fallback probabilities dict, written out. -/
theorem probDict_fallback :
    probDict fallbackProbs =
      [(Label.normal, 1), (Label.atrial, 0), (Label.ventricular, 0),
       (Label.lbbb, 0), (Label.rbbb, 0)] := by rfl

/-- The probability totals of the sample run: all mass on Normal. -/
theorem sample_totals (l : Label) :
    total_probabilities samplePreds l = if l = Label.normal then 1 else 0 := by
  show addPairs (fun _ => 0) (probDict fallbackProbs) l = _
  rw [probDict_fallback]
  cases l <;> norm_num [addPairs]

/-- Aggregating the sample run produces the sample aggregate. -/
theorem sample_calc : calculate_final_prediction samplePreds = .ok sampleAgg := by
  have h1 : counter (samplePreds.map (fun p => p.prediction)) = [(Label.normal, 1)] := by
    rfl
  unfold calculate_final_prediction
  rw [h1]
  show Except.ok (mkAggregate samplePreds (Label.normal, 1) []) = Except.ok sampleAgg
  congr 1
  unfold mkAggregate sampleAgg
  rw [AggregateResult.mk.injEq]
  refine ⟨rfl, ?_, rfl, ?_⟩
  · norm_num [maxByCount, samplePreds, round2, roundHalfEven]
  · have hlen : ((samplePreds.length : ℕ) : ℚ) = 1 := by norm_num [samplePreds]
    norm_num [allLabels, sample_totals, hlen]
    decide

end SampleEvaluation

/-- Claim C5: for every successfully aggregated result list, the final
class occurs at least as often as every label, and any label matching its
count first occurs in the prediction sequence no earlier than the final
class does: the tie is broken towards the earliest first occurrence. -/
theorem final_label_majority_earliest_tie (preds : List SegmentResult)
    (r : AggregateResult) (h : calculate_final_prediction preds = .ok r) :
    (∀ l, (preds.map (fun p => p.prediction)).count l ≤
        (preds.map (fun p => p.prediction)).count r.final_class) ∧
    (∀ l, (preds.map (fun p => p.prediction)).count l =
        (preds.map (fun p => p.prediction)).count r.final_class →
      (preds.map (fun p => p.prediction)).indexOf r.final_class ≤
        (preds.map (fun p => p.prediction)).indexOf l) := by
  obtain ⟨c, cs, hcc, hr⟩ := calc_ok_elim h
  subst hr
  have hfc : (mkAggregate preds c cs).final_class = (maxByCount c cs).1 := rfl
  rw [hfc]
  have hMmem : maxByCount c cs ∈ counter (preds.map (fun p => p.prediction)) := by
    rw [hcc]; exact maxByCount_mem c cs
  obtain ⟨hMls, hM2⟩ := counter_mem hMmem
  constructor
  · intro l
    by_cases hl : l ∈ preds.map (fun p => p.prediction)
    · have hlc := counter_mem_of hl
      rw [hcc] at hlc
      have hle : (preds.map (fun p => p.prediction)).count l ≤ (maxByCount c cs).2 := by
        rcases List.mem_cons.1 hlc with heq | hmem
        · have : (preds.map (fun p => p.prediction)).count l = c.2 := by rw [← heq]
          rw [this]
          exact (maxByCount_le c cs).1
        · exact (maxByCount_le c cs).2 _ hmem
      rw [← hM2]
      exact hle
    · rw [List.count_eq_zero.2 hl]
      exact Nat.zero_le _
  · intro l hlv
    have hMpos : 0 < (preds.map (fun p => p.prediction)).count (maxByCount c cs).1 :=
      count_pos_of_mem hMls
    have hl : l ∈ preds.map (fun p => p.prediction) := by
      by_contra hnl
      rw [List.count_eq_zero.2 hnl] at hlv
      omega
    have hlc := counter_mem_of hl
    rw [hcc] at hlc
    have hpw : (c :: cs).Pairwise
        (fun a b => (preds.map (fun p => p.prediction)).indexOf a.1 <
          (preds.map (fun p => p.prediction)).indexOf b.1) := by
      have := counter_pairwise (preds.map (fun p => p.prediction))
      rw [hcc] at this
      exact this
    exact maxByCount_earliest (fun x => (preds.map (fun p => p.prediction)).indexOf x)
      cs c hpw (l, (preds.map (fun p => p.prediction)).count l) hlc
      (hlv.trans hM2.symm)

/-- Claim C5 witness: on the sample run the final class Normal occurs at
least as often as Atrial Premature. -/
theorem final_label_majority_earliest_tie_witness :
    (samplePreds.map (fun p => p.prediction)).count Label.atrial ≤
      (samplePreds.map (fun p => p.prediction)).count sampleAgg.final_class :=
  (final_label_majority_earliest_tie samplePreds sampleAgg sample_calc).1 Label.atrial

/-- Claim C2 counterexample: aggregating one Normal segment yields a
distribution with no entry at all for Atrial Premature, refuting the
zero-filled-over-all-labels contract. -/
theorem distribution_omits_unseen_label :
    ∃ r, calculate_final_prediction samplePreds = .ok r ∧
      Label.atrial ∉ r.distribution.map Prod.fst :=
  ⟨sampleAgg, sample_calc, by decide⟩

/-- Claim C2 as amended: the distribution of a successful aggregation
contains an entry (l, n) exactly when l was predicted by some segment and
n is its occurrence count; labels never predicted are absent. -/
theorem distribution_exactly_observed (preds : List SegmentResult)
    (r : AggregateResult) (h : calculate_final_prediction preds = .ok r)
    (l : Label) (n : Nat) :
    (l, n) ∈ r.distribution ↔
      (l ∈ preds.map (fun p => p.prediction) ∧
        n = (preds.map (fun p => p.prediction)).count l) := by
  obtain ⟨c, cs, hcc, hr⟩ := calc_ok_elim h
  subst hr
  have hd : (mkAggregate preds c cs).distribution =
      counter (preds.map (fun p => p.prediction)) := by
    rw [hcc]; rfl
  rw [hd]
  constructor
  · intro hmem
    exact counter_mem hmem
  · rintro ⟨hmem, rfl⟩
    exact counter_mem_of hmem

/-- Claim C2 witness: on the sample run, the entry (Normal, 1) is in the
distribution and Normal indeed occurs once. -/
theorem distribution_exactly_observed_witness :
    (Label.normal, 1) ∈ sampleAgg.distribution ↔
      (Label.normal ∈ samplePreds.map (fun p => p.prediction) ∧
        1 = (samplePreds.map (fun p => p.prediction)).count Label.normal) :=
  distribution_exactly_observed samplePreds sampleAgg sample_calc Label.normal 1

section ProbabilityLemmas

/-- The totals dict after folding one probabilities dict adds, per label,
the sum of the values stored under that label. -/
theorem addPairs_apply (ps : List (Label × ℚ)) :
    ∀ (t : Label → ℚ) (l : Label), addPairs t ps l = t l + probAt l ps := by
  induction ps with
  | nil => intro t l; rw [addPairs, probAt, add_zero]
  | cons q ps ih =>
    intro t l
    simp only [addPairs, probAt, ih]
    rcases eq_or_ne l q.1 with h | h
    · rw [if_pos h, if_pos h.symm]
      ring
    · rw [if_neg h, if_neg (Ne.symm h)]
      ring

/-- The totals loop accumulates, per label, the per-prediction values. -/
theorem totalsLoop_apply (l : Label) :
    ∀ (preds : List SegmentResult) (t : Label → ℚ),
      totalsLoop t preds l =
        t l + (preds.map (fun p => probAt l p.probabilities)).sum := by
  intro preds
  induction preds with
  | nil => intro t; simp [totalsLoop]
  | cons p ps ih =>
    intro t
    rw [totalsLoop, ih, addPairs_apply]
    simp only [List.map_cons, List.sum_cons]
    ring

/-- The probability total of a label is the sum, over the predictions, of
that label's stored probability. -/
theorem total_probabilities_apply (preds : List SegmentResult) (l : Label) :
    total_probabilities preds l =
      (preds.map (fun p => probAt l p.probabilities)).sum := by
  rw [total_probabilities, totalsLoop_apply]
  simp

/-- Summing a one-hot assignment over the five labels gives its value. -/
theorem ite_label_sum (c : Label) (v : ℚ) :
    (allLabels.map (fun l => if c = l then v else 0)).sum = v := by
  cases c <;> simp [allLabels]

/-- Summing the per-label totals of one dict over the five labels gives
the sum of the dict's values. -/
theorem probAt_allLabels_sum (ps : List (Label × ℚ)) :
    (allLabels.map (fun l => probAt l ps)).sum = (ps.map (fun q => q.2)).sum := by
  induction ps with
  | nil => simp [probAt, allLabels]
  | cons q ps ih =>
    have hsplit :
        (allLabels.map (fun l => (if q.1 = l then q.2 else 0) + probAt l ps)).sum =
          (allLabels.map (fun l => if q.1 = l then q.2 else 0)).sum +
            (allLabels.map (fun l => probAt l ps)).sum := by
      simp [allLabels]
      ring
    simp only [probAt, List.map_cons, List.sum_cons]
    rw [hsplit, ite_label_sum, ih]

/-- Exchanging the label sum and the prediction sum of the totals. -/
theorem swap_label_pred_sum :
    ∀ preds : List SegmentResult,
      (allLabels.map
        (fun l => (preds.map (fun p => probAt l p.probabilities)).sum)).sum =
      (preds.map (fun p => (p.probabilities.map (fun q => q.2)).sum)).sum := by
  intro preds
  induction preds with
  | nil => simp [allLabels]
  | cons p ps ih =>
    have hsplit :
        (allLabels.map (fun l => probAt l p.probabilities +
            (ps.map (fun p' => probAt l p'.probabilities)).sum)).sum =
          (allLabels.map (fun l => probAt l p.probabilities)).sum +
            (allLabels.map
              (fun l => (ps.map (fun p' => probAt l p'.probabilities)).sum)).sum := by
      simp [allLabels]
      ring
    simp only [List.map_cons, List.sum_cons]
    rw [hsplit, probAt_allLabels_sum, ih]

/-- A list of rationals each within ε of 1 sums to within length·ε of its
length. -/
theorem sum_near_length (ε : ℚ) :
    ∀ qs : List ℚ, (∀ s ∈ qs, |s - 1| ≤ ε) →
      |qs.sum - (qs.length : ℚ)| ≤ (qs.length : ℚ) * ε := by
  intro qs
  induction qs with
  | nil => intro _; simp
  | cons s qs ih =>
    intro h
    have h1 := h s (List.mem_cons_self _ _)
    have h2 := ih (fun t ht => h t (List.mem_cons_of_mem _ ht))
    rw [List.sum_cons, List.length_cons]
    have key : s + qs.sum - (((qs.length + 1 : ℕ)) : ℚ) =
        (s - 1) + (qs.sum - (qs.length : ℚ)) := by
      push_cast
      ring
    rw [key]
    have htri := abs_add (s - 1) (qs.sum - (qs.length : ℚ))
    have hmul : ((qs.length + 1 : ℕ) : ℚ) * ε = (qs.length : ℚ) * ε + ε := by
      push_cast
      ring
    rw [hmul]
    linarith

end ProbabilityLemmas

/-- Claim C9: for every successful aggregation whose per-segment
probability dicts each cover the five labels without duplicate keys, the
average_probabilities entry of each label is the mean over the segments of
that label's stored probability (probAt reads a dict with a default 0 for
an absent label), and if every per-segment dict sums to within 1e-6 of 1
then the average probabilities sum to within 1e-6 of 1. -/
theorem average_probabilities_mean_and_sum (preds : List SegmentResult)
    (r : AggregateResult) (h : calculate_final_prediction preds = .ok r)
    (hcover : ∀ p ∈ preds, (p.probabilities.map (fun q => q.1)).Nodup ∧
      ∀ l : Label, l ∈ p.probabilities.map (fun q => q.1)) :
    (∀ l : Label,
      (l, (preds.map (fun p => probAt l p.probabilities)).sum / (preds.length : ℚ)) ∈
        r.average_probabilities) ∧
    ((∀ p ∈ preds, |(p.probabilities.map (fun q => q.2)).sum - 1| ≤ 1/1000000) →
      |(r.average_probabilities.map (fun q => q.2)).sum - 1| ≤ 1/1000000) := by
  obtain ⟨c, cs, hcc, hr⟩ := calc_ok_elim h
  subst hr
  have hne : preds ≠ [] := by
    rintro rfl
    simp [counter, firstKeys] at hcc
  have hlen : 0 < preds.length := List.length_pos.2 hne
  have hlenQ : (0:ℚ) < (preds.length : ℚ) := by exact_mod_cast hlen
  have havg : (mkAggregate preds c cs).average_probabilities =
      allLabels.map
        (fun l => (l, total_probabilities preds l / (preds.length : ℚ))) := rfl
  rw [havg]
  constructor
  · intro l
    refine List.mem_map.2 ⟨l, ?_, ?_⟩
    · cases l <;> decide
    · rw [total_probabilities_apply]
  · intro hsum
    have hmap : ((allLabels.map
        (fun l => (l, total_probabilities preds l / (preds.length : ℚ)))).map
          (fun q => q.2)) =
        allLabels.map (fun l => total_probabilities preds l / (preds.length : ℚ)) := by
      rw [List.map_map]
      rfl
    rw [hmap]
    have hdiv : (allLabels.map
        (fun l => total_probabilities preds l / (preds.length : ℚ))).sum =
        (allLabels.map (fun l => total_probabilities preds l)).sum /
          (preds.length : ℚ) := by
      simp [allLabels, div_add_div_same]
    rw [hdiv]
    have hswap : (allLabels.map (fun l => total_probabilities preds l)).sum =
        (preds.map (fun p => (p.probabilities.map (fun q => q.2)).sum)).sum := by
      simp only [total_probabilities_apply]
      exact swap_label_pred_sum preds
    rw [hswap]
    have hq : ∀ s ∈ preds.map (fun p => (p.probabilities.map (fun q => q.2)).sum),
        |s - 1| ≤ 1/1000000 := by
      intro s hs
      obtain ⟨p, hp, rfl⟩ := List.mem_map.1 hs
      exact hsum p hp
    have hS := sum_near_length (1/1000000)
      (preds.map (fun p => (p.probabilities.map (fun q => q.2)).sum)) hq
    rw [List.length_map] at hS
    have hrw : (preds.map (fun p => (p.probabilities.map (fun q => q.2)).sum)).sum /
        (preds.length : ℚ) - 1 =
        ((preds.map (fun p => (p.probabilities.map (fun q => q.2)).sum)).sum -
          (preds.length : ℚ)) / (preds.length : ℚ) := by
      field_simp
    rw [hrw, abs_div, abs_of_pos hlenQ, div_le_iff₀ hlenQ]
    calc |(preds.map (fun p => (p.probabilities.map (fun q => q.2)).sum)).sum -
        (preds.length : ℚ)| ≤ (preds.length : ℚ) * (1/1000000) := hS
      _ = 1/1000000 * (preds.length : ℚ) := by ring

/-- Claim C9 witness: on the sample run, the Normal entry of the average
probabilities is the mean of Normal's per-segment probability. -/
theorem average_probabilities_mean_and_sum_witness :
    (Label.normal,
      (samplePreds.map (fun p => probAt Label.normal p.probabilities)).sum /
        (samplePreds.length : ℚ)) ∈ sampleAgg.average_probabilities :=
  (average_probabilities_mean_and_sum samplePreds sampleAgg sample_calc
    (by decide)).1 Label.normal

section PipelineLemmas

/-- Every start index produced by the segmentation range is strictly
below the range's stop value. -/
theorem mem_pyRange_lt {i stop : Nat} (h : i ∈ pyRange stop 300) : i < stop := by
  rw [pyRange, List.mem_range'] at h
  obtain ⟨k, hk, rfl⟩ := h
  have h2 := Nat.div_mul_le_self (stop + 299) 300
  omega

/-- Every slice taken by the segmentation loop has the full 300 samples. -/
theorem seg_len_300 {denoised : List ℚ} {i : Nat}
    (h : i ∈ pyRange (denoised.length - 300) 300) :
    ((denoised.drop i).take 300).length = 300 := by
  have hi := mem_pyRange_lt h
  rw [List.length_take, List.length_drop]
  omega

/-- A filterMap whose function always answers some is the plain map. -/
theorem filterMap_eq_map_of (f : Nat → Option SegmentResult) (g : Nat → SegmentResult) :
    ∀ l : List Nat, (∀ a ∈ l, f a = some (g a)) → l.filterMap f = l.map g := by
  intro l
  induction l with
  | nil => intro _; rfl
  | cons a t ih =>
    intro h
    rw [List.filterMap_cons_some (h a (List.mem_cons_self _ _)), List.map_cons,
      ih (fun b hb => h b (List.mem_cons_of_mem _ hb))]

/-- The length guard of the segmentation loop always passes, so the loop
produces exactly one entry per start index. -/
theorem segmentPredictions_eq_map (oracle : ClassifierOracle) (denoised : List ℚ) :
    segmentPredictions oracle denoised =
      (pyRange (denoised.length - 300) 300).map (mkEntry oracle denoised) := by
  rw [segmentPredictions]
  apply filterMap_eq_map_of
  intro i hi
  rw [if_pos (seg_len_300 hi)]

end PipelineLemmas

/-- Claim C6: if the classifier fails on the window starting at j, the
whole analysis still succeeds: the response has one entry per window, the
failing window's entry is the fixed fallback (Normal with the one-hot
probability vector), and every window the classifier answered keeps its
answer. -/
theorem classifier_failure_segment_local (oracle : ClassifierOracle)
    (signal denoised : List ℚ) (j : Nat)
    (hden : process_ecg_data signal = some denoised)
    (hj : j ∈ pyRange (denoised.length - 300) 300)
    (hfail : oracle ((denoised.drop j).take 300) = none) :
    ∃ resp, upload_ecg_analyze oracle signal = .ok resp ∧
      resp.predictions = (pyRange (denoised.length - 300) 300).map (mkEntry oracle denoised) ∧
      mkEntry oracle denoised j =
        { segment := j / 300 + 1, prediction := Label.normal,
          probabilities := probDict fallbackProbs } ∧
      (∀ (i : Nat) (c : Fin 5) (probs : Fin 5 → ℚ),
        oracle ((denoised.drop i).take 300) = some (c, probs) →
        mkEntry oracle denoised i =
          { segment := i / 300 + 1, prediction := labelOf c,
            probabilities := probDict probs }) := by
  have hmap := segmentPredictions_eq_map oracle denoised
  have hne : segmentPredictions oracle denoised ≠ [] := by
    rw [hmap]
    intro hnil
    rw [List.map_eq_nil_iff] at hnil
    rw [hnil] at hj
    exact List.not_mem_nil j hj
  obtain ⟨fp, hfp⟩ := calc_ok_of_ne_nil hne
  refine ⟨⟨segmentPredictions oracle denoised, fp⟩, ?_, hmap, ?_, ?_⟩
  · have hfalse : (segmentPredictions oracle denoised).isEmpty = false :=
      List.isEmpty_eq_false.mpr hne
    unfold upload_ecg_analyze
    rw [hden]
    simp only [hfalse, Bool.false_eq_true, if_false, hfp]
  · simp only [mkEntry, predict_segment, hfail]
    rfl
  · intro i c probs hsucc
    simp only [mkEntry, predict_segment, hsucc]

/-- Claim C6 witness: on a 301-sample constant signal whose only window
the classifier refuses, the analysis still returns a response. -/
theorem classifier_failure_segment_local_witness :
    ∃ resp, upload_ecg_analyze (fun _ => none) (List.replicate 301 (0:ℚ)) = .ok resp := by
  obtain ⟨resp, h1, -⟩ := classifier_failure_segment_local (fun _ => none)
    (List.replicate 301 (0:ℚ)) (List.replicate 301 (0:ℚ)) 0
    (process_ecg_data_const 300 0)
    (by decide)
    rfl
  exact ⟨resp, h1⟩

/-- Claim C4 (code behaviour at the failing input): denoising the empty
signal does fail — the filter errors with the invalid-signal error,
process_ecg_data returns None with no partial output, and the analysis
block raises the fatal signal-processing error — but the route's blanket
except swallows that fatal error and returns a fabricated successful
analysis of the simulated 2000-sample signal, so the failure never
propagates as a fatal error to the caller as the claim demands. -/
theorem empty_signal_swallowed_by_fallback :
    hierarchical_kalman_filter [] defaultQ1 defaultR1 defaultQ2 defaultR2 =
        .error .invalidSignal ∧
      process_ecg_data [] = none ∧
      upload_ecg_analyze (fun _ => none) [] = .error .signalProcessing ∧
      ∃ resp,
        upload_ecg_route (fun _ => none) (List.replicate 2000 (0:ℚ)) [] = .ok resp := by
  refine ⟨rfl, rfl, rfl, ?_⟩
  show ∃ resp, upload_ecg_analyze (fun _ => none) (List.replicate 2000 (0:ℚ)) = .ok resp
  have hden : process_ecg_data (List.replicate 2000 (0:ℚ)) =
      some (List.replicate 2000 (0:ℚ)) := process_ecg_data_const 1999 0
  have hne : segmentPredictions (fun _ => none) (List.replicate 2000 (0:ℚ)) ≠ [] := by
    rw [segmentPredictions_eq_map, Ne, List.map_eq_nil_iff]
    simp only [List.length_replicate]
    decide
  obtain ⟨fp, hfp⟩ := calc_ok_of_ne_nil hne
  refine ⟨⟨segmentPredictions (fun _ => none) (List.replicate 2000 (0:ℚ)), fp⟩, ?_⟩
  have hfalse := List.isEmpty_eq_false.mpr hne
  unfold upload_ecg_analyze
  rw [hden]
  simp only [hfalse, Bool.false_eq_true, if_false, hfp]

end Doctorino
